import Mathlib

/-!
Verification of the beanbot agent loop and conversation-memory management
(`src/graph.py`, `src/bot.py`) against its natural-language specification.

The data model follows langchain message types as used by the source:
messages are a tagged union over System / Human / AI / ToolResult; AI
messages carry a list of tool-call requests; message content is either a
plain string or a list of typed parts (text segments and inline images).
-/

namespace BeanBot

/-- One typed part of a structured message content list (Gemini format):
a text segment or an inline image reference. -/
inductive ContentPart
  | text (s : String)
  | image (url : String)
deriving DecidableEq

/-- Message content: plain text, or an ordered list of typed parts. -/
inductive MsgContent
  | str (s : String)
  | parts (l : List ContentPart)
deriving DecidableEq

/-- A model-issued tool-call request: call id, tool name, argument map
(rendered as a string). -/
structure ToolCall where
  id : String
  name : String
  args : String
deriving DecidableEq

/-- The message union used by the graph state: `SystemMessage`,
`HumanMessage`, `AIMessage` (with pending tool calls) and `ToolMessage`
(carrying the call id it answers). -/
inductive Msg
  | system (content : MsgContent)
  | human (content : MsgContent)
  | ai (content : MsgContent) (tool_calls : List ToolCall)
  | tool (content : MsgContent) (tool_call_id : String)
deriving DecidableEq

/-- Test `isinstance(m, HumanMessage)`. -/
def isHuman : Msg → Bool
  | .human _ => true
  | _ => false

/-- Test `isinstance(m, SystemMessage)`. -/
def isSystem : Msg → Bool
  | .system _ => true
  | _ => false

/-- Test `isinstance(m, AIMessage)`. -/
def isAI : Msg → Bool
  | .ai _ _ => true
  | _ => false

/-- Number of `HumanMessage`s in a list (= number of turns it contains). -/
def countHuman (l : List Msg) : Nat :=
  l.countP isHuman

/-- The list `[i for i, m in enumerate(messages) if isinstance(m, HumanMessage)]`:
indices of the human messages, in increasing order. -/
def humanIndices : List Msg → List Nat
  | [] => []
  | m :: tl =>
      if isHuman m then 0 :: (humanIndices tl).map (· + 1)
      else (humanIndices tl).map (· + 1)

/-- Embedding of `trim_messages_for_context` (src/src/graph.py lines 201-225).
Keeps only the last `max_turns` conversation turns: if the number of
`HumanMessage`s is at most `max_turns` the input is returned unchanged;
otherwise all leading `SystemMessage`s are preserved and the list is cut at
the `max_turns`-th human index from the end. (`human_indices[-max_turns]`
is Python negative indexing; for `max_turns = 0` it denotes `human_indices[0]`.) -/
def trim_messages_for_context (messages : List Msg) (max_turns : Nat := 10) : List Msg :=
  let human_indices := humanIndices messages
  if human_indices.length ≤ max_turns then
    messages
  else
    let cutoff_idx :=
      if max_turns = 0 then human_indices.headD 0
      else human_indices.getD (human_indices.length - max_turns) 0
    let leading_system := messages.takeWhile isSystem
    leading_system ++ messages.drop cutoff_idx

/-- The current turn of a history: the most recent user-authored message and
everything after it (empty when the history contains no user message).
This is the spec's notion used to state frame conditions about trimming. -/
def currentTurn : List Msg → List Msg
  | [] => []
  | m :: tl =>
      if (currentTurn tl).isEmpty then
        (if isHuman m then m :: tl else [])
      else currentTurn tl

/-- Names of the registered tools (src/src/graph.py lines 124-140, the `TOOLS`
list): every registered name carries the `tool_` convention prefix. -/
def TOOLS : List String :=
  ["tool_list_files", "tool_read_file", "tool_update_journal", "tool_amend_knowledge",
   "tool_add_task", "tool_log_harvest", "tool_overwrite_file", "tool_generate_calendar",
   "tool_get_date", "tool_find_related_files", "tool_complete_task",
   "tool_search_file_contents", "tool_read_multiple_files", "tool_backup_file",
   "tool_delete_file"]

/-- The pending tool calls of a message: `getattr(m, "tool_calls", None)`,
present only on `AIMessage`. -/
def toolCallsOf : Msg → List ToolCall
  | .ai _ tcs => tcs
  | _ => []

/-- Routing outcome of the conditional edge: go to the `tools` node or `END`. -/
inductive Route
  | tools
  | halt
deriving DecidableEq

/-- Embedding of `should_continue` (src/src/graph.py lines 254-262): inspect the
last message of the state; a non-empty `tool_calls` list routes to the tools
node, anything else (`None` or `[]`, both falsy) ends the loop. `none` models
the `IndexError` Python would raise on an empty state. -/
def should_continue (msgs : List Msg) : Option Route :=
  msgs.getLast?.map fun m =>
    if (toolCallsOf m).isEmpty then Route.halt else Route.tools

/-- Modelled from the spec: the `tools` node (`ToolNode(TOOLS)`, a langgraph
prebuilt whose code is not under src/) dispatches each tool call of the last
AI message and appends exactly one `ToolMessage` per call, carrying that
call's id; `exec` abstracts tool execution, including the synthesized error
text for an unknown or raising tool. -/
def tool_node (exec : ToolCall → String) (m : Msg) : List Msg :=
  (toolCallsOf m).map fun c => Msg.tool (.str (exec c)) c.id

/-- Modelled from the spec: dispatch of a single call inside the tools node —
a requested name absent from the registry yields a textual unknown-tool error
result instead of an invocation. -/
def dispatch_tool (runTool : ToolCall → String) (c : ToolCall) : String :=
  if TOOLS.contains c.name then runTool c
  else "Error: " ++ c.name ++ " is not a valid tool."

/-- The tool calls the workflow hands to the tools node: the pending calls of
the last state message, passed through unchanged — the graph wiring
(src/src/graph.py lines 245-274) applies no rewriting between the model
response and `ToolNode` dispatch. -/
def pre_dispatch_calls (msgs : List Msg) : List ToolCall :=
  match msgs.getLast? with
  | some m => toolCallsOf m
  | none => []

/-- One run of the compiled graph on fuel: the `agent` node appends the model
response, `should_continue` routes, the tools node appends one result per
call, and control returns to `agent` (src/src/graph.py lines 245-274). -/
def runLoop (model : List Msg → Msg) (exec : ToolCall → String) :
    Nat → List Msg → Option (List Msg)
  | 0, _ => none
  | fuel + 1, msgs =>
      let response := model msgs
      let msgs' := msgs ++ [response]
      match should_continue msgs' with
      | some Route.halt => some msgs'
      | some Route.tools => runLoop model exec fuel (msgs' ++ tool_node exec response)
      | none => none

/-- All tool calls requested by the messages of a conversation. -/
def callsOf (msgs : List Msg) : List ToolCall :=
  (msgs.map toolCallsOf).flatten

/-- Number of tool-call requests carrying a given call id. -/
def callCount (msgs : List Msg) (id : String) : Nat :=
  ((callsOf msgs).filter fun c => c.id == id).length

/-- Test that a message is a `ToolMessage` answering the given call id. -/
def isResultFor (id : String) : Msg → Bool
  | .tool _ cid => cid == id
  | _ => false

/-- Number of `ToolMessage`s answering a given call id. -/
def resultCount (msgs : List Msg) (id : String) : Nat :=
  (msgs.filter (isResultFor id)).length

/-- Every call id has received exactly as many results as it was requested:
no unanswered (and no over-answered) tool call exists. -/
def balanced (msgs : List Msg) : Prop :=
  ∀ id, resultCount msgs id = callCount msgs id

/-- Reply sent on `asyncio.TimeoutError` (src/src/bot.py line 1532). -/
def TIMEOUT_REPLY : String :=
  "Sorry, that took too long — I wasn't able to get a response in time. Please try again in a moment."

/-- Reply sent on a quota / rate-limit failure (src/src/bot.py line 1537). -/
def QUOTA_REPLY : String :=
  "I've hit my API usage limit — please wait a few minutes before sending another message. I'll be back shortly!"

/-- Reply sent on any other failure (src/src/bot.py line 1538). -/
def GENERIC_ERROR_REPLY : String :=
  "I encountered an error processing your request."

/-- Python `s.lower()` on the ASCII strings involved. -/
def toLowerStr (s : String) : String :=
  String.mk (s.data.map Char.toLower)

/-- Python substring test `needle in hay`. -/
def strContains (hay needle : String) : Bool :=
  decide (needle.data <:+: hay.data)

/-- Embedding of the `except Exception` classifier of `process_llm_request`
(src/src/bot.py lines 1533-1538): quota markers produce the distinct
quota reply, everything else the generic error reply. -/
def classify_error (e : String) : String :=
  let err_str := toLowerStr e
  if (strContains err_str "resource" && strContains err_str "exhausted")
      || strContains e "429" || strContains err_str "quota" then
    QUOTA_REPLY
  else
    GENERIC_ERROR_REPLY

/-- Outcome of `app_graph.ainvoke` under `asyncio.wait_for`: normal
completion with the result message list, a timeout, or a raised exception
carrying its message text. -/
inductive GraphOutcome
  | completed (result_messages : List Msg)
  | timedOut
  | failed (err : String)

/-- Embedding of `_extract_text` (src/src/bot.py lines 1474-1482): plain text
is returned as is; for a typed-part list the text segments are concatenated
(image parts contribute nothing). -/
def extract_text : MsgContent → String
  | .str s => s
  | .parts l =>
      String.join (l.filterMap fun p =>
        match p with
        | .text s => some s
        | .image _ => none)

/-- Content of a message, whatever its role. -/
def msgContent : Msg → MsgContent
  | .system c => c
  | .human c => c
  | .ai c _ => c
  | .tool c _ => c

/-- The persisted conversation log per thread id. -/
def CheckpointStore : Type := String → List Msg

/-- Modelled from the spec: the checkpointer (langgraph `AsyncSqliteSaver`,
not under src/) persists the turn's final message list under the thread id
when and only when `ainvoke` completes; an aborted turn persists nothing. -/
def commit_turn (store : CheckpointStore) (thread_id : String) (msgs : List Msg) :
    CheckpointStore :=
  fun t => if t = thread_id then msgs else store t

/-- Embedding of the outcome handling of `process_llm_request`
(src/src/bot.py lines 1523-1538). The message assembly before the call
(lines 1505-1521) does not affect the outcome handling; the graph invocation
under `asyncio.wait_for` is abstracted as the `outcome` argument, and the
checkpointer's persistence is the spec-modelled `commit_turn`. Returns the
reply text and the resulting checkpoint store. -/
def process_llm_request (store : CheckpointStore) (thread_id : String)
    (outcome : GraphOutcome) : String × CheckpointStore :=
  match outcome with
  | .completed result_messages =>
      (match result_messages.getLast? with
       | some final_message => extract_text (msgContent final_message)
       | none => GENERIC_ERROR_REPLY,
       commit_turn store thread_id result_messages)
  | .timedOut => (TIMEOUT_REPLY, store)
  | .failed e => (classify_error e, store)

/-- A row of the sqlite `writes` / `checkpoints` tables, projected to the two
columns the pruning statements read (src/src/bot.py lines 2111-2149). -/
structure CkRow where
  thread_id : String
  checkpoint_id : String
deriving DecidableEq

/-- The two tables of `data/conversations.db` touched by `_run_db_prune`. -/
structure ConversationsDb where
  writes : List CkRow
  checkpoints : List CkRow
deriving DecidableEq

/-- One pattern character of SQL `LIKE`: `_` matches any character, letters
match ASCII case-insensitively (SQLite default collation for `LIKE`). -/
def charLikeEq (p c : Char) : Bool :=
  p == '_' || p.toLower == c.toLower

/-- `thread_id LIKE 'pat%'`: the pattern characters must match the head of
the string, the `%` tail matches anything. -/
def likeChars : List Char → List Char → Bool
  | [], _ => true
  | _ :: _, [] => false
  | p :: ps, c :: cs => charLikeEq p c && likeChars ps cs

/-- `thread_id LIKE 'pat%'` on strings. -/
def likeHeadMatch (pat s : String) : Bool :=
  likeChars pat.data s.data

/-- The ephemeral thread-id prefixes (src/src/bot.py lines 2102-2108). -/
def EPHEMERAL_PATTERNS : List String :=
  ["daily_report_", "debrief_", "recap_", "consolidate_", "calendar_task_"]

/-- SQLite `<` under the default BINARY collation: lexicographic comparison of
the code units. On the ASCII thread ids involved this is byte-wise `memcmp`
order, compared here code point by code point. -/
def lexLt : List Char → List Char → Bool
  | [], [] => false
  | [], _ :: _ => true
  | _ :: _, [] => false
  | a :: as, b :: bs =>
      if a.toNat < b.toNat then true
      else if b.toNat < a.toNat then false
      else lexLt as bs

/-- SQL string comparison `a < b`. -/
def sqlStrLt (a b : String) : Bool :=
  lexLt a.data b.data

/-- `DELETE FROM t WHERE thread_id LIKE 'pat%' AND thread_id < bound`
(src/src/bot.py lines 2113-2121): rows matching both conditions are removed. -/
def deleteEphemeralRows (rows : List CkRow) (pat bound : String) : List CkRow :=
  rows.filter fun r => !(likeHeadMatch pat r.thread_id && sqlStrLt r.thread_id bound)

/-- One iteration of the ephemeral-deletion loop for one pattern. -/
def pruneEphemeralOne (db : ConversationsDb) (pat cutoff : String) : ConversationsDb :=
  let bound := pat ++ cutoff
  ⟨deleteEphemeralRows db.writes pat bound, deleteEphemeralRows db.checkpoints pat bound⟩

/-- Step 1 of `_run_db_prune` (src/src/bot.py lines 2100-2122): delete, for
each ephemeral pattern, the rows lexicographically below the pattern followed
by the cutoff date. -/
def pruneEphemeral (db : ConversationsDb) (cutoff : String) : ConversationsDb :=
  EPHEMERAL_PATTERNS.foldl (fun d pat => pruneEphemeralOne d pat cutoff) db

/-- `thread_id GLOB '[0-9]*'`: the id starts with an ASCII digit. -/
def startsWithDigit (s : String) : Bool :=
  match s.data with
  | [] => false
  | c :: _ => c.isDigit

/-- `DB_PRUNE_RETENTION_DAYS` default (src/src/bot.py line 55). -/
def DB_PRUNE_RETENTION_DAYS : Nat := 7

/-- `DB_PRUNE_MAX_CHECKPOINTS` default (src/src/bot.py line 56). -/
def DB_PRUNE_MAX_CHECKPOINTS : Nat := 20

/-- The checkpoint ids recorded for a thread, in table order. -/
def checkpointIdsOf (db : ConversationsDb) (tid : String) : List String :=
  (db.checkpoints.filter fun r => r.thread_id == tid).map (·.checkpoint_id)

/-- `ORDER BY checkpoint_id DESC`: newest (largest in SQL string order)
checkpoint id first — an earlier element is not below a later one. -/
def descOrder (a b : String) : Prop := sqlStrLt a b = false

instance : DecidableRel descOrder :=
  fun a b => inferInstanceAs (Decidable (sqlStrLt a b = false))

/-- The thread's checkpoint ids sorted newest first. -/
def sortedDescIds (db : ConversationsDb) (tid : String) : List String :=
  (checkpointIdsOf db tid).insertionSort descOrder

/-- Step 2 body of `_run_db_prune` for one persistent thread (src/src/bot.py
lines 2130-2149): fetch the checkpoint id at `OFFSET cap - 1` of the
descending order; when present, delete the rows of this thread with a smaller
checkpoint id from both tables. -/
def prunePersistentOne (db : ConversationsDb) (tid : String) : ConversationsDb :=
  match (sortedDescIds db tid).get? (DB_PRUNE_MAX_CHECKPOINTS - 1) with
  | none => db
  | some cutoff_id =>
      let cond := fun r : CkRow => r.thread_id == tid && sqlStrLt r.checkpoint_id cutoff_id
      ⟨db.writes.filter (fun r => !(cond r)), db.checkpoints.filter (fun r => !(cond r))⟩

/-- `SELECT DISTINCT thread_id FROM checkpoints WHERE thread_id GLOB '[0-9]*'`
(src/src/bot.py lines 2125-2128). -/
def persistentThreads (db : ConversationsDb) : List String :=
  ((db.checkpoints.filter fun r => startsWithDigit r.thread_id).map (·.thread_id)).dedup

/-- Embedding of `_run_db_prune` (src/src/bot.py lines 2091-2156): ephemeral
deletion for every pattern, then per-persistent-thread capping. `cutoff` is
the ISO rendering of `today - DB_PRUNE_RETENTION_DAYS` computed on line 2096;
the trailing `VACUUM` has no effect on table contents. -/
def run_db_prune (db : ConversationsDb) (cutoff : String) : ConversationsDb :=
  let db1 := pruneEphemeral db cutoff
  (persistentThreads db1).foldl (fun d tid => prunePersistentOne d tid) db1

/-- The `n` most recent checkpoint ids of a list (largest first). -/
def mostRecentIds (ids : List String) (n : Nat) : List String :=
  (ids.insertionSort descOrder).take n

/-- What the per-thread capping does to a thread's checkpoint-id list: if a
checkpoint id exists at descending offset `cap - 1`, keep only the ids not
below it; otherwise leave the list alone. -/
def keepIds (ids : List String) : List String :=
  match (ids.insertionSort descOrder).get? (DB_PRUNE_MAX_CHECKPOINTS - 1) with
  | none => ids
  | some cutoff_id => ids.filter fun x => !(sqlStrLt x cutoff_id)

/-- Test that a string starts with an ASCII lowercase letter (true of every
ephemeral pattern). -/
def headLower (s : String) : Bool :=
  match s.data with
  | [] => false
  | c :: _ => 97 ≤ c.toNat && c.toNat ≤ 122

/-- A concrete checkpoint table: one persistent thread `555` holding 21
checkpoint revisions. -/
def wdb : ConversationsDb :=
  ⟨[],
   [⟨"555", "a01"⟩, ⟨"555", "a02"⟩, ⟨"555", "a03"⟩, ⟨"555", "a04"⟩, ⟨"555", "a05"⟩,
    ⟨"555", "a06"⟩, ⟨"555", "a07"⟩, ⟨"555", "a08"⟩, ⟨"555", "a09"⟩, ⟨"555", "a10"⟩,
    ⟨"555", "a11"⟩, ⟨"555", "a12"⟩, ⟨"555", "a13"⟩, ⟨"555", "a14"⟩, ⟨"555", "a15"⟩,
    ⟨"555", "a16"⟩, ⟨"555", "a17"⟩, ⟨"555", "a18"⟩, ⟨"555", "a19"⟩, ⟨"555", "a20"⟩,
    ⟨"555", "a21"⟩]⟩

/-- A concrete model for exercising the loop: one tool call on the first
invocation, a plain answer afterwards. -/
def wmodel : List Msg → Msg := fun ms =>
  if ms.length ≤ 1 then
    Msg.ai (.str "checking the date") [⟨"call1", "tool_get_date", ""⟩]
  else
    Msg.ai (.str "It is 2025-10-12.") []

/-- A concrete tool executor. -/
def wexec : ToolCall → String := fun _ => "2025-10-12 08:00"

/-- A concrete initial state: one user message. -/
def winit : List Msg := [Msg.human (.str "what is the date?")]

/-- The final state the loop produces from `winit` under `wmodel`/`wexec`. -/
def wout : List Msg :=
  [Msg.human (.str "what is the date?"),
   Msg.ai (.str "checking the date") [⟨"call1", "tool_get_date", ""⟩],
   Msg.tool (.str "2025-10-12 08:00") "call1",
   Msg.ai (.str "It is 2025-10-12.") []]

theorem isHuman_eq_false_of_isSystem {m : Msg} (h : isSystem m = true) :
    isHuman m = false := by
  cases m <;> simp_all [isSystem, isHuman]

theorem humanIndices_cons_human {m : Msg} {tl : List Msg} (hm : isHuman m = true) :
    humanIndices (m :: tl) = 0 :: (humanIndices tl).map (· + 1) := by
  simp [humanIndices, hm]

theorem humanIndices_cons_other {m : Msg} {tl : List Msg} (hm : isHuman m = false) :
    humanIndices (m :: tl) = (humanIndices tl).map (· + 1) := by
  simp [humanIndices, hm]

theorem humanIndices_length (l : List Msg) :
    (humanIndices l).length = countHuman l := by
  unfold countHuman
  induction l with
  | nil => rfl
  | cons m tl ih =>
      cases hm : isHuman m
      · simp [humanIndices_cons_other hm, List.countP_cons, hm, ih]
      · simp [humanIndices_cons_human hm, List.countP_cons, hm, ih]

theorem getD_map_one_add : ∀ (ns : List Nat) (j : Nat), j < ns.length →
    (ns.map (· + 1)).getD j 0 = ns.getD j 0 + 1
  | [], _, h => absurd h (by simp)
  | _ :: _, 0, _ => rfl
  | _ :: ns, j + 1, h => getD_map_one_add ns j (by simpa using h)

/-- Dropping the history at its `j`-th human index yields a list that starts
with a human message and contains the remaining `length - j` human messages. -/
theorem drop_at_humanIndex : ∀ (l : List Msg) (j : Nat), j < (humanIndices l).length →
    (∃ m tl, l.drop ((humanIndices l).getD j 0) = m :: tl ∧ isHuman m = true)
    ∧ countHuman (l.drop ((humanIndices l).getD j 0)) = (humanIndices l).length - j := by
  intro l
  induction l with
  | nil => intro j hj; simp [humanIndices] at hj
  | cons m tl ih =>
      intro j hj
      cases hm : isHuman m
      · rw [humanIndices_cons_other hm] at hj ⊢
        have hj' : j < (humanIndices tl).length := by simpa using hj
        rw [getD_map_one_add _ j hj', List.drop_succ_cons]
        obtain ⟨hex, hcount⟩ := ih j hj'
        refine ⟨hex, ?_⟩
        rw [hcount]
        simp
      · rw [humanIndices_cons_human hm] at hj ⊢
        match j with
        | 0 =>
            rw [List.getD_cons_zero, List.drop_zero]
            refine ⟨⟨m, tl, rfl, hm⟩, ?_⟩
            have hl := humanIndices_length tl
            simp only [countHuman] at hl ⊢
            simp [List.countP_cons, hm, ← hl]
        | j + 1 =>
            have hj' : j < (humanIndices tl).length := by simpa using hj
            rw [List.getD_cons_succ, getD_map_one_add _ j hj', List.drop_succ_cons]
            obtain ⟨hex, hcount⟩ := ih j hj'
            refine ⟨hex, ?_⟩
            rw [hcount]
            simp

/-- When the turn count is within the limit, trimming is the identity. -/
theorem trim_eq_self_of_le (messages : List Msg) (max_turns : Nat)
    (h : countHuman messages ≤ max_turns) :
    trim_messages_for_context messages max_turns = messages := by
  have hlen : (humanIndices messages).length ≤ max_turns := by
    rwa [humanIndices_length]
  unfold trim_messages_for_context
  simp [hlen]

/-- When the turn count exceeds the limit, the trimmed history is all leading
system messages followed by the suffix cut at a human message, and that suffix
contains exactly `max_turns` human messages. -/
theorem trim_shape (messages : List Msg) (max_turns : Nat)
    (h1 : 1 ≤ max_turns) (h2 : max_turns < countHuman messages) :
    ∃ k, trim_messages_for_context messages max_turns
           = messages.takeWhile isSystem ++ messages.drop k
       ∧ (∃ m tl, messages.drop k = m :: tl ∧ isHuman m = true)
       ∧ countHuman (messages.drop k) = max_turns := by
  have hlen : max_turns < (humanIndices messages).length := by
    rwa [humanIndices_length]
  have hnle : ¬ (humanIndices messages).length ≤ max_turns := not_le.mpr hlen
  have h0 : max_turns ≠ 0 := by omega
  refine ⟨(humanIndices messages).getD ((humanIndices messages).length - max_turns) 0,
    ?_, ?_, ?_⟩
  · unfold trim_messages_for_context
    simp [hnle, h0]
  · exact (drop_at_humanIndex messages _ (by omega)).1
  · rw [(drop_at_humanIndex messages _ (by omega)).2]
    omega

theorem countHuman_takeWhile_system (messages : List Msg) :
    countHuman (messages.takeWhile isSystem) = 0 := by
  refine List.countP_eq_zero.mpr ?_
  intro a ha
  have := List.mem_takeWhile_imp ha
  simp [isHuman_eq_false_of_isSystem this]

theorem currentTurn_eq_nil_iff (l : List Msg) :
    currentTurn l = [] ↔ countHuman l = 0 := by
  induction l with
  | nil => simp [currentTurn, countHuman]
  | cons m tl ih =>
      simp only [countHuman, List.countP_cons] at ih ⊢
      by_cases he : (currentTurn tl).isEmpty
      · have htl : List.countP isHuman tl = 0 := ih.mp (List.isEmpty_iff.mp he)
        cases hm : isHuman m
        · simp [currentTurn, he, hm, htl, ih]
        · simp [currentTurn, he, hm, htl]
      · have htl : currentTurn tl ≠ [] := by
          intro hnil; exact he (by simp [hnil])
        have hc : List.countP isHuman tl ≠ 0 := fun hc => htl (ih.mpr hc)
        simp only [currentTurn]
        rw [if_neg he]
        constructor
        · intro hnil; exact absurd (ih.mp hnil) hc
        · intro h0
          have hz : List.countP isHuman tl = 0 := by omega
          exact absurd hz hc

theorem currentTurn_suffix (l : List Msg) : currentTurn l <:+ l := by
  induction l with
  | nil => simp [currentTurn]
  | cons m tl ih =>
      by_cases he : (currentTurn tl).isEmpty
      · by_cases hm : isHuman m <;> simp [currentTurn, he, hm]
      · simp only [currentTurn, he, if_false]
        exact ih.trans (List.suffix_cons_iff.mpr (Or.inr (List.suffix_refl tl)))

/-- The current turn of a history is a suffix of any suffix of the history
that still contains at least one human message. -/
theorem currentTurn_suffix_of_suffix : ∀ (l s : List Msg), s <:+ l →
    1 ≤ countHuman s → currentTurn l <:+ s := by
  intro l
  induction l with
  | nil =>
      intro s hs hh
      rw [List.suffix_nil.mp hs] at hh
      simp [countHuman] at hh
  | cons m tl ih =>
      intro s hs hh
      rcases List.suffix_cons_iff.mp hs with h | h
      · rw [h]; exact currentTurn_suffix (m :: tl)
      · have h1 : 1 ≤ countHuman tl := by
          have hsub := List.Sublist.countP_le isHuman h.sublist
          simp only [countHuman] at hh ⊢
          omega
        have htl : currentTurn tl ≠ [] := by
          intro hnil
          have h0 := (currentTurn_eq_nil_iff tl).mp hnil
          omega
        have he : ¬ (currentTurn tl).isEmpty = true := by
          simpa [List.isEmpty_iff] using htl
        simp only [currentTurn]
        rw [if_neg he]
        exact ih s h hh

/-- C3: for every thread history whose number of turns (user-authored
messages) is at most `max_turns`, the Context Window Manager returns the
input message sequence unchanged (and hence removes nothing). -/
theorem trim_returns_input_when_within_limit (messages : List Msg) (max_turns : Nat)
    (h : countHuman messages ≤ max_turns) :
    trim_messages_for_context messages max_turns = messages :=
  trim_eq_self_of_le messages max_turns h

theorem trim_returns_input_when_within_limit_witness :
    countHuman [Msg.human (.str "hello"), Msg.ai (.str "hi there") []] ≤ 10
    ∧ trim_messages_for_context [Msg.human (.str "hello"), Msg.ai (.str "hi there") []] 10
        = [Msg.human (.str "hello"), Msg.ai (.str "hi there") []] :=
  ⟨by decide, trim_returns_input_when_within_limit _ 10 (by decide)⟩

/-- C2 counterexample: with two leading system messages and `max_turns = 1`,
the trimmed window keeps BOTH leading system messages, contradicting the
claim that it contains at most one leading system message. -/
theorem trim_keeps_two_leading_system_messages :
    trim_messages_for_context
        [Msg.system (.str "s1"), Msg.system (.str "s2"),
         Msg.human (.str "u1"), Msg.human (.str "u2")] 1
      = [Msg.system (.str "s1"), Msg.system (.str "s2"), Msg.human (.str "u2")]
    ∧ ((trim_messages_for_context
        [Msg.system (.str "s1"), Msg.system (.str "s2"),
         Msg.human (.str "u1"), Msg.human (.str "u2")] 1).countP isSystem) = 2 := by
  constructor <;> decide

/-- C2 (amended): for every thread history with more turns than `max_turns`
(`max_turns ≥ 1`), the returned window is ALL leading system messages followed
by exactly the last `max_turns` turns (the kept suffix starts at a
user-authored message and contains exactly `max_turns` of them); no eviction
set exists — dropped messages are merely absent from the returned window. -/
theorem trim_window_systems_and_last_turns (messages : List Msg) (max_turns : Nat)
    (h1 : 1 ≤ max_turns) (h2 : max_turns < countHuman messages) :
    ∃ k, trim_messages_for_context messages max_turns
           = messages.takeWhile isSystem ++ messages.drop k
       ∧ (∃ m tl, messages.drop k = m :: tl ∧ isHuman m = true)
       ∧ countHuman (messages.drop k) = max_turns :=
  trim_shape messages max_turns h1 h2

theorem trim_window_systems_and_last_turns_witness :
    1 ≤ 1
    ∧ 1 < countHuman [Msg.system (.str "s"), Msg.human (.str "u1"), Msg.human (.str "u2")]
    ∧ ∃ k, trim_messages_for_context
             [Msg.system (.str "s"), Msg.human (.str "u1"), Msg.human (.str "u2")] 1
             = ([Msg.system (.str "s"), Msg.human (.str "u1"),
                 Msg.human (.str "u2")].takeWhile isSystem)
               ++ ([Msg.system (.str "s"), Msg.human (.str "u1"),
                    Msg.human (.str "u2")].drop k)
         ∧ (∃ m tl, [Msg.system (.str "s"), Msg.human (.str "u1"),
                     Msg.human (.str "u2")].drop k = m :: tl ∧ isHuman m = true)
         ∧ countHuman ([Msg.system (.str "s"), Msg.human (.str "u1"),
                        Msg.human (.str "u2")].drop k) = 1 :=
  ⟨by decide, by decide,
   trim_window_systems_and_last_turns _ 1 (by decide) (by decide)⟩

/-- C4 counterexample: a kept old-turn user message with an embedded image and
its full text passes through the Context Window Manager unchanged — no text
is cut, no annotation is added, and the image is not stripped, contradicting
the claim that old turns inside the window are size-limited. -/
theorem old_turn_message_not_size_limited :
    trim_messages_for_context
        [Msg.human (.parts [ContentPart.text "garden photo",
                            ContentPart.image "attachment://layout.jpg"]),
         Msg.ai (.str "Noted the layout.") [],
         Msg.human (.str "what is in bed 3?")] 10
      = [Msg.human (.parts [ContentPart.text "garden photo",
                            ContentPart.image "attachment://layout.jpg"]),
         Msg.ai (.str "Noted the layout.") [],
         Msg.human (.str "what is in bed 3?")] := by
  decide

/-- C4 (amended): within the kept window no message is modified at all — the
Context Window Manager either returns the input unchanged or returns the
leading system messages followed by a verbatim suffix of the input; in
particular no text truncation, annotation, or image stripping is applied to
any kept message of any turn. -/
theorem trim_output_is_verbatim_input_segments (messages : List Msg) (max_turns : Nat) :
    trim_messages_for_context messages max_turns = messages
    ∨ ∃ k, trim_messages_for_context messages max_turns
             = messages.takeWhile isSystem ++ messages.drop k := by
  by_cases hc : (humanIndices messages).length ≤ max_turns
  · left
    unfold trim_messages_for_context
    simp [hc]
  · right
    refine ⟨if max_turns = 0 then (humanIndices messages).headD 0
            else (humanIndices messages).getD ((humanIndices messages).length - max_turns) 0,
           ?_⟩
    unfold trim_messages_for_context
    simp [hc]

/-- C9: the current turn (the most recent user-authored message and everything
after it) is a verbatim suffix of the Context Window Manager's output for
every history and every `max_turns ≥ 1`: it is never truncated and never
dropped, regardless of its size. -/
theorem current_turn_preserved_verbatim (messages : List Msg) (max_turns : Nat)
    (h : 1 ≤ max_turns) :
    currentTurn messages <:+ trim_messages_for_context messages max_turns := by
  by_cases hc : countHuman messages ≤ max_turns
  · rw [trim_eq_self_of_le _ _ hc]
    exact currentTurn_suffix messages
  · obtain ⟨k, heq, _, hcount⟩ := trim_shape messages max_turns h (by omega)
    rw [heq]
    have htail : currentTurn messages <:+ messages.drop k :=
      currentTurn_suffix_of_suffix messages (messages.drop k) (List.drop_suffix k messages)
        (by rw [hcount]; exact h)
    exact htail.trans (List.suffix_append _ _)

theorem current_turn_preserved_verbatim_witness :
    1 ≤ 1
    ∧ currentTurn [Msg.human (.str "u1"), Msg.ai (.str "a1") [],
                   Msg.human (.str "u2"), Msg.ai (.str "a2") []]
        <:+ trim_messages_for_context
              [Msg.human (.str "u1"), Msg.ai (.str "a1") [],
               Msg.human (.str "u2"), Msg.ai (.str "a2") []] 1 :=
  ⟨by decide, current_turn_preserved_verbatim _ 1 (by decide)⟩

/-- C10: turn-window trimming is idempotent for every message list and every
`max_turns ≥ 1`: a second application of `trim_messages_for_context` to its
own output returns that output unchanged, because the output never contains
more than `max_turns` user-authored messages. -/
theorem trim_idempotent (messages : List Msg) (max_turns : Nat) (h : 1 ≤ max_turns) :
    trim_messages_for_context (trim_messages_for_context messages max_turns) max_turns
      = trim_messages_for_context messages max_turns := by
  by_cases hc : countHuman messages ≤ max_turns
  · rw [trim_eq_self_of_le _ _ hc, trim_eq_self_of_le _ _ hc]
  · obtain ⟨k, heq, _, hcount⟩ := trim_shape messages max_turns h (by omega)
    rw [heq]
    apply trim_eq_self_of_le
    have h1 := countHuman_takeWhile_system messages
    simp only [countHuman] at h1 hcount ⊢
    rw [List.countP_append]
    omega

theorem trim_idempotent_witness :
    1 ≤ 1
    ∧ trim_messages_for_context
        (trim_messages_for_context [Msg.human (.str "u1"), Msg.human (.str "u2")] 1) 1
        = trim_messages_for_context [Msg.human (.str "u1"), Msg.human (.str "u2")] 1 :=
  ⟨by decide, trim_idempotent _ 1 (by decide)⟩

theorem callCount_append (a b : List Msg) (id : String) :
    callCount (a ++ b) id = callCount a id + callCount b id := by
  unfold callCount callsOf
  rw [List.map_append, List.flatten_append, List.filter_append, List.length_append]

theorem resultCount_append (a b : List Msg) (id : String) :
    resultCount (a ++ b) id = resultCount a id + resultCount b id := by
  unfold resultCount
  rw [List.filter_append, List.length_append]

theorem resultCount_single_ai {r : Msg} (h : isAI r = true) (id : String) :
    resultCount [r] id = 0 := by
  cases r <;> simp_all [isAI, resultCount, isResultFor]

theorem callCount_single (r : Msg) (id : String) :
    callCount [r] id = ((toolCallsOf r).filter fun c => c.id == id).length := by
  unfold callCount callsOf
  simp

theorem flatten_map_nil {α β : Type} (l : List α) :
    (l.map fun _ => ([] : List β)).flatten = [] := by
  induction l <;> simp_all

theorem callCount_tool_node (exec : ToolCall → String) (r : Msg) (id : String) :
    callCount (tool_node exec r) id = 0 := by
  unfold callCount callsOf tool_node
  rw [List.map_map]
  have h : (toolCallsOf r).map (toolCallsOf ∘ fun c => Msg.tool (.str (exec c)) c.id)
      = (toolCallsOf r).map fun _ => ([] : List ToolCall) := by
    apply List.map_congr_left
    intro c _
    rfl
  rw [h, flatten_map_nil]
  rfl

theorem resultCount_tool_node (exec : ToolCall → String) (r : Msg) (id : String) :
    resultCount (tool_node exec r) id
      = ((toolCallsOf r).filter fun c => c.id == id).length := by
  unfold resultCount tool_node
  have h : (isResultFor id ∘ fun c : ToolCall => Msg.tool (.str (exec c)) c.id)
      = fun c : ToolCall => c.id == id := by
    funext c
    rfl
  rw [List.filter_map, h, List.length_map]

theorem balanced_halt_step {msgs : List Msg} {r : Msg} (hAI : isAI r = true)
    (hnil : toolCallsOf r = []) (hbal : balanced msgs) :
    balanced (msgs ++ [r]) := by
  intro id
  rw [resultCount_append, callCount_append, resultCount_single_ai hAI,
      callCount_single, hnil]
  simpa using hbal id

theorem balanced_tool_step {msgs : List Msg} {r : Msg} (exec : ToolCall → String)
    (hAI : isAI r = true) (hbal : balanced msgs) :
    balanced (msgs ++ [r] ++ tool_node exec r) := by
  intro id
  rw [resultCount_append, resultCount_append, callCount_append, callCount_append,
      resultCount_single_ai hAI, resultCount_tool_node, callCount_tool_node,
      callCount_single, hbal id]
  omega

theorem should_continue_concat (msgs : List Msg) (m : Msg) :
    should_continue (msgs ++ [m])
      = some (if (toolCallsOf m).isEmpty then Route.halt else Route.tools) := by
  unfold should_continue
  rw [List.getLast?_concat]
  rfl

theorem runLoop_balanced (model : List Msg → Msg) (exec : ToolCall → String)
    (hAI : ∀ ms, isAI (model ms) = true) :
    ∀ fuel msgs out, runLoop model exec fuel msgs = some out → balanced msgs →
      balanced out ∧ ∃ r, out.getLast? = some r ∧ toolCallsOf r = [] := by
  intro fuel
  induction fuel with
  | zero =>
      intro msgs out h
      simp [runLoop] at h
  | succ fuel ih =>
      intro msgs out h hbal
      rw [runLoop, should_continue_concat] at h
      by_cases hemp : (toolCallsOf (model msgs)).isEmpty
      · rw [if_pos hemp] at h
        simp only [Option.some.injEq] at h
        subst h
        have hnil : toolCallsOf (model msgs) = [] := List.isEmpty_iff.mp hemp
        refine ⟨balanced_halt_step (hAI msgs) hnil hbal, model msgs, ?_, hnil⟩
        exact List.getLast?_concat msgs
      · rw [if_neg hemp] at h
        exact ih _ out h (balanced_tool_step exec (hAI msgs) hbal)

theorem count_id_once : ∀ (l : List ToolCall), l.Pairwise (fun a b => a.id ≠ b.id) →
    ∀ c ∈ l, (l.filter fun d => d.id == c.id).length = 1 := by
  intro l
  induction l with
  | nil => intro _ c hc; cases hc
  | cons d tl ih =>
      intro hp c hc
      rw [List.pairwise_cons] at hp
      obtain ⟨hd, htl⟩ := hp
      rcases List.mem_cons.mp hc with heq | hmem
      · rw [heq]
        have hnil : (tl.filter fun e => e.id == d.id) = [] := by
          rw [List.filter_eq_nil_iff]
          intro e he
          simp only [beq_iff_eq]
          exact fun h => (hd e he) h.symm
        rw [List.filter_cons]
        simp [hnil]
      · have hb : (d.id == c.id) = false := by
          simpa using hd c hmem
        rw [List.filter_cons, hb]
        simp only [Bool.false_eq_true, if_false]
        exact ih htl c hmem

/-- C1: the agent loop never returns a final answer while an unanswered tool
call exists. Whenever the last state message carries tool calls the controller
routes to the tools node, the tools node answers every dispatched call id with
exactly one `ToolMessage` before the model is invoked again, the final state
is balanced (every call id has exactly one matching result when call ids are
distinct), and the loop terminates only on a model response with zero tool
calls. -/
theorem agent_loop_never_answers_with_pending_calls
    (model : List Msg → Msg) (exec : ToolCall → String) (fuel : Nat)
    (msgs out : List Msg)
    (hAI : ∀ ms, isAI (model ms) = true)
    (hrun : runLoop model exec fuel msgs = some out)
    (hbal : balanced msgs) :
    balanced out
    ∧ (∃ r, out.getLast? = some r ∧ toolCallsOf r = [])
    ∧ (∀ ms (m : Msg), should_continue (ms ++ [m])
         = some (if (toolCallsOf m).isEmpty then Route.halt else Route.tools))
    ∧ (∀ m : Msg, (toolCallsOf m).Pairwise (fun a b => a.id ≠ b.id) →
         ∀ c ∈ toolCallsOf m, resultCount (tool_node exec m) c.id = 1) := by
  obtain ⟨h1, h2⟩ := runLoop_balanced model exec hAI fuel msgs out hrun hbal
  refine ⟨h1, h2, fun ms m => should_continue_concat ms m, ?_⟩
  intro m hnodup c hc
  rw [resultCount_tool_node]
  exact count_id_once (toolCallsOf m) hnodup c hc

theorem agent_loop_never_answers_with_pending_calls_witness :
    balanced wout
    ∧ (∃ r, wout.getLast? = some r ∧ toolCallsOf r = [])
    ∧ (∀ ms (m : Msg), should_continue (ms ++ [m])
         = some (if (toolCallsOf m).isEmpty then Route.halt else Route.tools))
    ∧ (∀ m : Msg, (toolCallsOf m).Pairwise (fun a b => a.id ≠ b.id) →
         ∀ c ∈ toolCallsOf m, resultCount (tool_node wexec m) c.id = 1) :=
  agent_loop_never_answers_with_pending_calls wmodel wexec 3 winit wout
    (fun ms => by unfold wmodel; split <;> rfl)
    (by decide)
    (fun _ => rfl)

/-- C5: when the whole-turn timeout elapses, `process_llm_request` returns the
distinct timeout reply — different from the generic error reply, the quota
reply, and anything the exception classifier can produce — and the checkpoint
store is left exactly as it was: no message of the aborted turn is persisted. -/
theorem timeout_outcome_distinct_and_nothing_persisted
    (store : CheckpointStore) (thread_id : String) :
    (process_llm_request store thread_id GraphOutcome.timedOut).1 = TIMEOUT_REPLY
    ∧ (process_llm_request store thread_id GraphOutcome.timedOut).2 = store
    ∧ (TIMEOUT_REPLY == GENERIC_ERROR_REPLY) = false
    ∧ (TIMEOUT_REPLY == QUOTA_REPLY) = false
    ∧ (∀ e, (classify_error e == TIMEOUT_REPLY) = false) := by
  refine ⟨rfl, rfl, by decide, by decide, ?_⟩
  intro e
  simp only [classify_error]
  split <;> decide

/-- C8 counterexample: the model requests the prefix-stripped name
"read_file"; the registry holds "tool_read_file"; yet the workflow dispatches
the call unchanged and dispatch yields the unknown-tool error — no rewriting
to the canonical name happens, contradicting the claim that such calls are
rewritten before dispatch. -/
theorem stripped_tool_name_not_rewritten :
    pre_dispatch_calls
        [Msg.human (.str "read garlic.md"),
         Msg.ai (.str "") [⟨"call7", "read_file", ""⟩]]
      = [⟨"call7", "read_file", ""⟩]
    ∧ TOOLS.contains "read_file" = false
    ∧ TOOLS.contains ("tool_" ++ "read_file") = true
    ∧ dispatch_tool wexec ⟨"call7", "read_file", ""⟩
        = "Error: read_file is not a valid tool." := by
  decide

/-- C8 (amended): no name reconciliation is performed: the workflow hands the
requested tool calls to the tools node unchanged, and any requested name
absent from the registry — including one whose prefix-stripped form matches a
registered tool — produces an unknown-tool error result at dispatch. -/
theorem dispatch_preserves_requested_names (msgs : List Msg) (m : Msg)
    (runTool : ToolCall → String) (c : ToolCall)
    (hc : TOOLS.contains c.name = false) :
    pre_dispatch_calls (msgs ++ [m]) = toolCallsOf m
    ∧ dispatch_tool runTool c = "Error: " ++ c.name ++ " is not a valid tool." := by
  constructor
  · unfold pre_dispatch_calls
    rw [List.getLast?_concat]
  · unfold dispatch_tool
    simp only [hc, Bool.false_eq_true, if_false]

theorem dispatch_preserves_requested_names_witness :
    TOOLS.contains "read_file" = false
    ∧ (pre_dispatch_calls ([] ++ [Msg.ai (.str "") [⟨"call7", "read_file", ""⟩]])
         = toolCallsOf (Msg.ai (.str "") [⟨"call7", "read_file", ""⟩])
       ∧ dispatch_tool wexec ⟨"call7", "read_file", ""⟩
           = "Error: " ++ "read_file" ++ " is not a valid tool.") :=
  ⟨by decide,
   dispatch_preserves_requested_names [] (Msg.ai (.str "") [⟨"call7", "read_file", ""⟩])
     wexec ⟨"call7", "read_file", ""⟩ (by decide)⟩

theorem lexLt_irrefl : ∀ as : List Char, lexLt as as = false := by
  intro as
  induction as with
  | nil => rfl
  | cons a as ih =>
      unfold lexLt
      rw [if_neg (Nat.lt_irrefl _), if_neg (Nat.lt_irrefl _)]
      exact ih

theorem lexLt_asym : ∀ as bs : List Char, lexLt as bs = true → lexLt bs as = false := by
  intro as
  induction as with
  | nil =>
      intro bs h
      cases bs with
      | nil => simp [lexLt] at h
      | cons b bs => rfl
  | cons a as ih =>
      intro bs h
      cases bs with
      | nil => simp [lexLt] at h
      | cons b bs =>
          unfold lexLt at h ⊢
          by_cases hab : a.toNat < b.toNat
          · rw [if_neg (by omega), if_pos hab]
          · by_cases hba : b.toNat < a.toNat
            · rw [if_neg hab, if_pos hba] at h
              exact absurd h (by simp)
            · rw [if_neg hab, if_neg hba] at h
              rw [if_neg hba, if_neg hab]
              exact ih bs h

theorem lexLt_false_trans : ∀ as bs cs : List Char,
    lexLt as bs = false → lexLt bs cs = false → lexLt as cs = false := by
  intro as
  induction as with
  | nil =>
      intro bs cs h1 h2
      cases bs with
      | nil => exact h2
      | cons b bs => simp [lexLt] at h1
  | cons a as ih =>
      intro bs cs h1 h2
      cases bs with
      | nil =>
          cases cs with
          | nil => rfl
          | cons c cs => simp [lexLt] at h2
      | cons b bs =>
          cases cs with
          | nil => rfl
          | cons c cs =>
              unfold lexLt at h1 h2 ⊢
              by_cases hab : a.toNat < b.toNat
              · rw [if_pos hab] at h1
                exact absurd h1 (by simp)
              · by_cases hbc : b.toNat < c.toNat
                · rw [if_pos hbc] at h2
                  exact absurd h2 (by simp)
                · have hac : ¬ a.toNat < c.toNat := by omega
                  rw [if_neg hac]
                  by_cases hca : c.toNat < a.toNat
                  · rw [if_pos hca]
                  · rw [if_neg hca]
                    have hba : ¬ b.toNat < a.toNat := by omega
                    have hcb : ¬ c.toNat < b.toNat := by omega
                    rw [if_neg hab, if_neg hba] at h1
                    rw [if_neg hbc, if_neg hcb] at h2
                    exact ih bs cs h1 h2

theorem lexLt_connex : ∀ as bs : List Char,
    lexLt as bs = false → lexLt bs as = false → as = bs := by
  intro as
  induction as with
  | nil =>
      intro bs h1 _
      cases bs with
      | nil => rfl
      | cons b bs => simp [lexLt] at h1
  | cons a as ih =>
      intro bs h1 h2
      cases bs with
      | nil => simp [lexLt] at h2
      | cons b bs =>
          unfold lexLt at h1 h2
          by_cases hab : a.toNat < b.toNat
          · rw [if_pos hab] at h1
            exact absurd h1 (by simp)
          · by_cases hba : b.toNat < a.toNat
            · rw [if_pos hba] at h2
              exact absurd h2 (by simp)
            · rw [if_neg hab, if_neg hba] at h1
              rw [if_neg hba, if_neg hab] at h2
              have hn : a.toNat = b.toNat := by omega
              have hchar : a = b := Char.ext (UInt32.ext hn)
              rw [hchar, ih bs h1 h2]

theorem sqlStrLt_irrefl (a : String) : sqlStrLt a a = false :=
  lexLt_irrefl a.data

theorem sqlStrLt_connex (a b : String) (h1 : sqlStrLt a b = false)
    (h2 : sqlStrLt b a = false) : a = b := by
  have hd := lexLt_connex a.data b.data h1 h2
  cases a
  cases b
  exact congrArg String.mk hd

instance : IsTotal String descOrder := by
  constructor
  intro a b
  cases hb : sqlStrLt a b
  · exact Or.inl hb
  · exact Or.inr (lexLt_asym a.data b.data hb)

instance : IsTrans String descOrder :=
  ⟨fun a b c h1 h2 => lexLt_false_trans a.data b.data c.data h1 h2⟩

/-- In a descending sorted duplicate-free list, the elements not below the
element at index `k` are exactly the first `k + 1` elements. -/
theorem sorted_desc_filter_take (l : List String) (hs : l.Sorted descOrder)
    (hnd : l.Nodup) (k : Nat) (hk : k < l.length) (cutoff : String)
    (hcut : l.get ⟨k, hk⟩ = cutoff) :
    l.filter (fun x => !(sqlStrLt x cutoff)) = l.take (k + 1) := by
  have hkeep : ∀ x ∈ l.take (k + 1), (!(sqlStrLt x cutoff)) = true := by
    intro x hx
    obtain ⟨n, hn⟩ := List.mem_iff_get.mp hx
    have hlen : (l.take (k + 1)).length = min (k + 1) l.length := List.length_take _ _
    have hfin := n.isLt
    have hn1 : (n : Nat) < k + 1 := by omega
    have hn2 : (n : Nat) < l.length := by omega
    have hget : (l.take (k + 1)).get n = l.get ⟨n, hn2⟩ :=
      (List.get_take l hn2 hn1).symm
    rcases Nat.lt_or_ge (n : Nat) k with hlt | hge
    · have hrel := List.Sorted.rel_get_of_lt hs
        (a := ⟨n, hn2⟩) (b := ⟨k, hk⟩) (by simpa [Fin.mk_lt_mk] using hlt)
      rw [hcut] at hrel
      rw [← hn, hget]
      simp only [descOrder] at hrel
      rw [hrel]
      rfl
    · have hnk : (n : Nat) = k := by omega
      have hx_eq : l.get ⟨n, hn2⟩ = cutoff := by
        rw [← hcut]
        congr 1
        exact Fin.ext hnk
      rw [← hn, hget, hx_eq, sqlStrLt_irrefl]
      rfl
  have hdrop : ∀ x ∈ l.drop (k + 1), (!(sqlStrLt x cutoff)) = false := by
    intro x hx
    obtain ⟨n, hn⟩ := List.mem_iff_get.mp hx
    have hlen : (l.drop (k + 1)).length = l.length - (k + 1) := List.length_drop _ _
    have hfin := n.isLt
    have hidx : k + 1 + (n : Nat) < l.length := by omega
    have hget : (l.drop (k + 1)).get n = l.get ⟨k + 1 + n, hidx⟩ :=
      (List.get_drop l hidx).symm
    have hrel := List.Sorted.rel_get_of_lt hs
      (a := ⟨k, hk⟩) (b := ⟨k + 1 + n, hidx⟩) (by simp [Fin.mk_lt_mk]; omega)
    rw [hcut] at hrel
    have hne : l.get ⟨k + 1 + n, hidx⟩ ≠ cutoff := by
      rw [← hcut]
      intro he
      have hij := (hnd.get_inj_iff).mp he
      simp [Fin.mk.injEq] at hij
      omega
    cases hb : sqlStrLt (l.get ⟨k + 1 + n, hidx⟩) cutoff
    · exact absurd (sqlStrLt_connex _ _ hb hrel) hne
    · rw [← hn, hget, hb]
      rfl
  have h1 : (l.take (k + 1)).filter (fun x => !(sqlStrLt x cutoff)) = l.take (k + 1) :=
    List.filter_eq_self.mpr hkeep
  have h2 : (l.drop (k + 1)).filter (fun x => !(sqlStrLt x cutoff)) = [] :=
    List.filter_eq_nil_iff.mpr (by
      intro x hx
      rw [hdrop x hx]
      simp)
  calc l.filter (fun x => !(sqlStrLt x cutoff))
      = ((l.take (k + 1)) ++ (l.drop (k + 1))).filter (fun x => !(sqlStrLt x cutoff)) := by
        rw [List.take_append_drop]
    _ = (l.take (k + 1)).filter (fun x => !(sqlStrLt x cutoff))
          ++ (l.drop (k + 1)).filter (fun x => !(sqlStrLt x cutoff)) :=
        List.filter_append _ _
    _ = l.take (k + 1) ++ [] := by rw [h1, h2]
    _ = l.take (k + 1) := by simp

/-- Capping a duplicate-free id list of length within the cap is the identity. -/
theorem keepIds_eq_self (ids : List String) (hnd : ids.Nodup)
    (hle : ids.length ≤ DB_PRUNE_MAX_CHECKPOINTS) : keepIds ids = ids := by
  have hcap20 : DB_PRUNE_MAX_CHECKPOINTS = 20 := rfl
  have hperm : (ids.insertionSort descOrder).Perm ids := List.perm_insertionSort _ _
  have hlen : (ids.insertionSort descOrder).length = ids.length := hperm.length_eq
  rcases Nat.lt_or_ge ids.length DB_PRUNE_MAX_CHECKPOINTS with hlt | hge
  · have hnone : (ids.insertionSort descOrder).get? (DB_PRUNE_MAX_CHECKPOINTS - 1) = none := by
      rw [List.get?_eq_none]
      omega
    unfold keepIds
    rw [hnone]
  · have heq : ids.length = DB_PRUNE_MAX_CHECKPOINTS := by omega
    have hk : DB_PRUNE_MAX_CHECKPOINTS - 1 < (ids.insertionSort descOrder).length := by
      rw [hlen]
      omega
    have hsome := List.get?_eq_get hk
    unfold keepIds
    rw [hsome]
    have hsort : (ids.insertionSort descOrder).Sorted descOrder :=
      List.sorted_insertionSort _ _
    have hsnd : (ids.insertionSort descOrder).Nodup := hperm.symm.nodup hnd
    have hfil := sorted_desc_filter_take (ids.insertionSort descOrder) hsort hsnd
      (DB_PRUNE_MAX_CHECKPOINTS - 1) hk _ rfl
    have htake : (ids.insertionSort descOrder).take (DB_PRUNE_MAX_CHECKPOINTS - 1 + 1)
        = ids.insertionSort descOrder := by
      apply List.take_of_length_le
      omega
    apply List.Sublist.eq_of_length (List.filter_sublist ids)
    have hpf : (ids.filter
        (fun x => !(sqlStrLt x ((ids.insertionSort descOrder).get
          ⟨DB_PRUNE_MAX_CHECKPOINTS - 1, hk⟩)))).Perm
        ((ids.insertionSort descOrder).filter
        (fun x => !(sqlStrLt x ((ids.insertionSort descOrder).get
          ⟨DB_PRUNE_MAX_CHECKPOINTS - 1, hk⟩)))) :=
      (hperm.symm).filter _
    rw [hfil, htake] at hpf
    rw [hpf.length_eq, hlen]

/-- Capping a duplicate-free id list longer than the cap keeps exactly the
`DB_PRUNE_MAX_CHECKPOINTS` most recent ids. -/
theorem keepIds_top_of_gt (ids : List String) (hnd : ids.Nodup)
    (hgt : DB_PRUNE_MAX_CHECKPOINTS < ids.length) :
    (keepIds ids).Perm (mostRecentIds ids DB_PRUNE_MAX_CHECKPOINTS)
    ∧ (keepIds ids).length = DB_PRUNE_MAX_CHECKPOINTS := by
  have hperm : (ids.insertionSort descOrder).Perm ids := List.perm_insertionSort _ _
  have hlen : (ids.insertionSort descOrder).length = ids.length := hperm.length_eq
  have hk : DB_PRUNE_MAX_CHECKPOINTS - 1 < (ids.insertionSort descOrder).length := by
    rw [hlen]
    omega
  have hsome := List.get?_eq_get hk
  have hsort : (ids.insertionSort descOrder).Sorted descOrder :=
    List.sorted_insertionSort _ _
  have hsnd : (ids.insertionSort descOrder).Nodup := hperm.symm.nodup hnd
  have hfil := sorted_desc_filter_take (ids.insertionSort descOrder) hsort hsnd
    (DB_PRUNE_MAX_CHECKPOINTS - 1) hk _ rfl
  have hpf : (ids.filter
      (fun x => !(sqlStrLt x ((ids.insertionSort descOrder).get
        ⟨DB_PRUNE_MAX_CHECKPOINTS - 1, hk⟩)))).Perm
      ((ids.insertionSort descOrder).filter
      (fun x => !(sqlStrLt x ((ids.insertionSort descOrder).get
        ⟨DB_PRUNE_MAX_CHECKPOINTS - 1, hk⟩)))) :=
    (hperm.symm).filter _
  rw [hfil] at hpf
  have hcap : DB_PRUNE_MAX_CHECKPOINTS - 1 + 1 = DB_PRUNE_MAX_CHECKPOINTS := by
    unfold DB_PRUNE_MAX_CHECKPOINTS
    omega
  rw [hcap] at hpf
  have hkeep_eq : keepIds ids
      = ids.filter (fun x => !(sqlStrLt x ((ids.insertionSort descOrder).get
          ⟨DB_PRUNE_MAX_CHECKPOINTS - 1, hk⟩))) := by
    unfold keepIds
    rw [hsome]
  constructor
  · rw [hkeep_eq]
    exact hpf
  · rw [hkeep_eq, hpf.length_eq, List.length_take, hlen]
    omega

/-- Filtering rows by a condition that is false on every row of a thread
leaves the thread's checkpoint-id list unchanged. -/
theorem checkpointIdsOf_filter_invariant (db : ConversationsDb) (tid : String)
    (cond : CkRow → Bool) (h : ∀ r, r.thread_id = tid → cond r = false) :
    checkpointIdsOf
        ⟨db.writes.filter (fun r => !(cond r)),
         db.checkpoints.filter (fun r => !(cond r))⟩ tid
      = checkpointIdsOf db tid := by
  unfold checkpointIdsOf
  simp only
  rw [List.filter_filter]
  congr 1
  apply List.filter_congr
  intro r _
  cases ht : (r.thread_id == tid)
  · rfl
  · have hteq : r.thread_id = tid := by simpa using ht
    rw [h r hteq]
    rfl

theorem likeHeadMatch_false_of_lower_digit (pat s : String)
    (hpat : headLower pat = true) (hs : startsWithDigit s = true) :
    likeHeadMatch pat s = false := by
  unfold headLower at hpat
  unfold startsWithDigit at hs
  unfold likeHeadMatch
  cases hp : pat.data with
  | nil => rw [hp] at hpat; simp at hpat
  | cons p ps =>
      cases hsd : s.data with
      | nil => rw [hsd] at hs; simp at hs
      | cons c cs =>
          rw [hp] at hpat
          rw [hsd] at hs
          simp only [Bool.and_eq_true, decide_eq_true_eq] at hpat
          simp only [Char.isDigit, Bool.and_eq_true, decide_eq_true_eq] at hs
          have hc1 : 48 ≤ c.toNat := hs.1
          have hc2 : c.toNat ≤ 57 := hs.2
          have hp1 : 97 ≤ p.toNat := hpat.1
          have hp2 : p.toNat ≤ 122 := hpat.2
          unfold likeChars
          have hus : (p == '_') = false := by
            rw [beq_eq_false_iff_ne]
            intro he
            rw [he] at hp1
            have h95 : ('_' : Char).toNat = 95 := by decide
            omega
          have hplow : p.toLower = p := by
            simp only [Char.toLower]
            rw [if_neg (by omega)]
          have hclow : c.toLower = c := by
            simp only [Char.toLower]
            rw [if_neg (by omega)]
          have hpc : (p.toLower == c.toLower) = false := by
            rw [hplow, hclow, beq_eq_false_iff_ne]
            intro he
            rw [he] at hp1
            omega
          unfold charLikeEq
          rw [hus, hpc]
          rfl

theorem pruneEphemeralOne_ids (db : ConversationsDb) (pat cutoff tid : String)
    (hdigit : startsWithDigit tid = true) (hpat : headLower pat = true) :
    checkpointIdsOf (pruneEphemeralOne db pat cutoff) tid = checkpointIdsOf db tid := by
  apply checkpointIdsOf_filter_invariant
  intro r hr
  rw [hr, likeHeadMatch_false_of_lower_digit pat tid hpat hdigit]
  rfl

theorem pruneEphemeral_ids (db : ConversationsDb) (cutoff tid : String)
    (hdigit : startsWithDigit tid = true) :
    checkpointIdsOf (pruneEphemeral db cutoff) tid = checkpointIdsOf db tid := by
  unfold pruneEphemeral
  simp only [EPHEMERAL_PATTERNS, List.foldl_cons, List.foldl_nil]
  rw [pruneEphemeralOne_ids _ _ _ _ hdigit (by decide),
      pruneEphemeralOne_ids _ _ _ _ hdigit (by decide),
      pruneEphemeralOne_ids _ _ _ _ hdigit (by decide),
      pruneEphemeralOne_ids _ _ _ _ hdigit (by decide),
      pruneEphemeralOne_ids _ _ _ _ hdigit (by decide)]

theorem prunePersistentOne_other_ids (db : ConversationsDb) (other tid : String)
    (hne : other ≠ tid) :
    checkpointIdsOf (prunePersistentOne db other) tid = checkpointIdsOf db tid := by
  unfold prunePersistentOne
  cases hm : (sortedDescIds db other).get? (DB_PRUNE_MAX_CHECKPOINTS - 1) with
  | none => rfl
  | some cutoff_id =>
      apply checkpointIdsOf_filter_invariant
      intro r hr
      have : (r.thread_id == other) = false := by
        rw [hr, beq_eq_false_iff_ne]
        exact fun he => hne he.symm
      rw [this]
      rfl

theorem prunePersistentOne_self_ids (db : ConversationsDb) (tid : String) :
    checkpointIdsOf (prunePersistentOne db tid) tid
      = keepIds (checkpointIdsOf db tid) := by
  unfold prunePersistentOne keepIds sortedDescIds
  cases hm : ((checkpointIdsOf db tid).insertionSort descOrder).get?
      (DB_PRUNE_MAX_CHECKPOINTS - 1) with
  | none => rfl
  | some cutoff_id =>
      show checkpointIdsOf
          ⟨db.writes.filter _, db.checkpoints.filter _⟩ tid = _
      unfold checkpointIdsOf
      simp only
      rw [List.filter_filter, List.filter_map]
      congr 1
      rw [List.filter_filter]
      apply List.filter_congr
      intro r _
      cases ht : (r.thread_id == tid)
      · simp
      · simp [Function.comp]

theorem foldl_prune_ids_not_mem (ts : List String) (db : ConversationsDb) (tid : String)
    (h : tid ∉ ts) :
    checkpointIdsOf (ts.foldl (fun d t => prunePersistentOne d t) db) tid
      = checkpointIdsOf db tid := by
  induction ts generalizing db with
  | nil => rfl
  | cons t ts ih =>
      rw [List.foldl_cons]
      have hne : t ≠ tid := by
        intro he
        exact h (he ▸ List.mem_cons_self t ts)
      rw [ih _ (fun hm => h (List.mem_cons_of_mem _ hm))]
      exact prunePersistentOne_other_ids db t tid hne

theorem foldl_prune_ids_mem (ts : List String) (db : ConversationsDb) (tid : String)
    (hnd : ts.Nodup) (hmem : tid ∈ ts) :
    checkpointIdsOf (ts.foldl (fun d t => prunePersistentOne d t) db) tid
      = keepIds (checkpointIdsOf db tid) := by
  induction ts generalizing db with
  | nil => cases hmem
  | cons t ts ih =>
      rw [List.foldl_cons]
      rw [List.nodup_cons] at hnd
      obtain ⟨hnin, hnd2⟩ := hnd
      rcases List.mem_cons.mp hmem with heq | hmem2
      · rw [← heq] at hnin ⊢
        rw [foldl_prune_ids_not_mem ts _ tid hnin]
        exact prunePersistentOne_self_ids db tid
      · have hne : t ≠ tid := by
          intro he
          exact hnin (he ▸ hmem2)
        rw [ih _ hnd2 hmem2, prunePersistentOne_other_ids db t tid hne]

theorem mem_persistentThreads (db : ConversationsDb) (tid : String)
    (hdigit : startsWithDigit tid = true)
    (hne : checkpointIdsOf db tid ≠ []) : tid ∈ persistentThreads db := by
  unfold checkpointIdsOf at hne
  unfold persistentThreads
  cases hf : db.checkpoints.filter (fun r => r.thread_id == tid) with
  | nil => rw [hf] at hne; simp at hne
  | cons r rest =>
      have hrmem : r ∈ db.checkpoints.filter (fun r => r.thread_id == tid) := by
        rw [hf]
        exact List.mem_cons_self _ _
      obtain ⟨hrin, hrt⟩ := List.mem_filter.mp hrmem
      have hteq : r.thread_id = tid := by simpa using hrt
      rw [List.mem_dedup]
      apply List.mem_map.mpr
      refine ⟨r, ?_, hteq⟩
      apply List.mem_filter.mpr
      exact ⟨hrin, by rw [hteq]; exact hdigit⟩

theorem run_db_prune_eq (db : ConversationsDb) (cutoff : String) :
    run_db_prune db cutoff
      = (persistentThreads (pruneEphemeral db cutoff)).foldl
          (fun d tid => prunePersistentOne d tid) (pruneEphemeral db cutoff) := rfl

/-- C7: for every persistent thread (digit-leading id) with duplicate-free
checkpoint ids, a Retention Compactor run leaves threads with at most
`DB_PRUNE_MAX_CHECKPOINTS` (default 20) revisions unchanged, and for threads
with more revisions deletes the older ones so that exactly the 20 most recent
checkpoint revisions remain. -/
theorem persistent_thread_capped_to_most_recent (db : ConversationsDb)
    (tid cutoff_date : String) (hdigit : startsWithDigit tid = true)
    (hnd : (checkpointIdsOf db tid).Nodup) :
    ((checkpointIdsOf db tid).length ≤ DB_PRUNE_MAX_CHECKPOINTS →
        checkpointIdsOf (run_db_prune db cutoff_date) tid = checkpointIdsOf db tid)
    ∧ (DB_PRUNE_MAX_CHECKPOINTS < (checkpointIdsOf db tid).length →
        (checkpointIdsOf (run_db_prune db cutoff_date) tid).Perm
            (mostRecentIds (checkpointIdsOf db tid) DB_PRUNE_MAX_CHECKPOINTS)
        ∧ (checkpointIdsOf (run_db_prune db cutoff_date) tid).length
            = DB_PRUNE_MAX_CHECKPOINTS) := by
  have hids1 : checkpointIdsOf (pruneEphemeral db cutoff_date) tid
      = checkpointIdsOf db tid := pruneEphemeral_ids db cutoff_date tid hdigit
  by_cases hmem : tid ∈ persistentThreads (pruneEphemeral db cutoff_date)
  · have hfold := foldl_prune_ids_mem (persistentThreads (pruneEphemeral db cutoff_date))
      (pruneEphemeral db cutoff_date) tid (List.nodup_dedup _) hmem
    rw [hids1] at hfold
    constructor
    · intro hle
      rw [run_db_prune_eq, hfold]
      exact keepIds_eq_self _ hnd hle
    · intro hgt
      rw [run_db_prune_eq, hfold]
      exact keepIds_top_of_gt _ hnd hgt
  · have hnil : checkpointIdsOf (pruneEphemeral db cutoff_date) tid = [] := by
      by_contra hne
      exact hmem (mem_persistentThreads _ _ hdigit hne)
    have hids0 : checkpointIdsOf db tid = [] := by
      rw [← hids1]
      exact hnil
    have hfold := foldl_prune_ids_not_mem
      (persistentThreads (pruneEphemeral db cutoff_date))
      (pruneEphemeral db cutoff_date) tid hmem
    constructor
    · intro _
      rw [run_db_prune_eq, hfold, hids1]
    · intro hgt
      rw [hids0] at hgt
      simp at hgt

theorem persistent_thread_capped_to_most_recent_witness :
    (checkpointIdsOf (run_db_prune wdb "2025-10-05") "555").Perm
        (mostRecentIds (checkpointIdsOf wdb "555") DB_PRUNE_MAX_CHECKPOINTS)
    ∧ (checkpointIdsOf (run_db_prune wdb "2025-10-05") "555").length
        = DB_PRUNE_MAX_CHECKPOINTS :=
  (persistent_thread_capped_to_most_recent wdb "555" "2025-10-05"
      (by decide) (by decide)).2 (by decide)

/-- C6 (code evaluated at the failing input): with retention cutoff date
2025-10-05, a Retention Compactor run deletes the rows of the ephemeral
thread "daily_report_2015-01-01" but RETAINS every row of the ephemeral
thread "consolidate_garlic_2015-01-01", although its embedded date is a
decade older than the retention window: the comparison
`thread_id < 'consolidate_' || cutoff` is false because the topic text sits
between the prefix and the date, so old consolidate threads are never
deleted. -/
theorem consolidate_thread_escapes_retention_prune :
    run_db_prune
        ⟨[⟨"consolidate_garlic_2015-01-01", "ck1"⟩, ⟨"daily_report_2015-01-01", "ck2"⟩],
         [⟨"consolidate_garlic_2015-01-01", "ck1"⟩, ⟨"daily_report_2015-01-01", "ck2"⟩]⟩
        "2025-10-05"
      = ⟨[⟨"consolidate_garlic_2015-01-01", "ck1"⟩],
         [⟨"consolidate_garlic_2015-01-01", "ck1"⟩]⟩ := by
  decide

end BeanBot
